import Mathlib

/-!
Verification of the course-graph progress core of `sineptic/telegram-course-bot`.

The embedding covers:
* `TaskProgress` and the two store update primitives
  (`src/crates/course-graph/src/progress_store.rs`),
* `CourseGraph` with `propagate_fail`, `propagate_no_fail` and
  `detect_recursive_fails` (`src/crates/course-graph/src/graph.rs`),
* `Task::syncronize`, `Task::add_repetition`, `UserProgress::init`,
  `CourseGraph::init_store` and `Course::default_user_progress`
  (`src/crates/telegram-bot/src/event_handler/progress_store.rs`,
  `.../course.rs`).

Modelling conventions:
* A learner's fully-initialized progress store is a total function
  `String → TaskProgress` (the Rust code panics on a missing entry; every
  claim below presupposes an initialized store).  The entry-counting claims
  about store initialization use an association-list model instead.
* The unbounded Rust recursion of `propagate_fail` / `propagate_no_fail` is
  embedded with an explicit fuel parameter; `none` means the fuel ran out.
  `detect_recursive_fails` supplies fuel `(number of cards) + 1`, which is
  proved sufficient for acyclic graphs.
* The external memory model (`ssr_algorithms` / `fsrs`) is consumed through
  its results only: `syncronize` takes the booleans `timeToRepeat`
  (`next_repetition < now`) and `failed` as arguments, and the per-card
  history is a plain list of recorded repetitions.
-/

namespace CourseBot

/-- Per-card progress, from `course-graph/src/progress_store.rs`. -/
inductive TaskProgress where
  | NotStarted (could_be_learned : Bool)
  | Good
  | Failed
  | RecursiveFailed
deriving DecidableEq, Repr

/-- `impl Default for TaskProgress`: `NotStarted { could_be_learned: false }`. -/
def TaskProgress.default : TaskProgress := .NotStarted false

/-- A node of the dependency graph, from `course-graph/src/card.rs`:
dependency and dependent adjacency lists. -/
structure CardNode where
  dependencies : List String
  dependents : List String
deriving DecidableEq, Repr

/-- The course dependency graph, `CourseGraph { cards: HashMap<String, CardNode> }`,
embedded as an association list (the `text` field is irrelevant to the claims). -/
structure CourseGraph where
  cards : List (String × CardNode)
deriving Repr

namespace CourseGraph

/-- The card names of the graph, in iteration order (`self.cards.keys()`). -/
def keys (g : CourseGraph) : List String := g.cards.map Prod.fst

/-- Association-list lookup, embedding `self.cards[name]` access. -/
def findCard (g : CourseGraph) (name : String) : Option CardNode :=
  go g.cards
where
  go : List (String × CardNode) → Option CardNode
    | [] => none
    | (k, v) :: rest => if k = name then some v else go rest

/-- `self.cards[name].dependencies` (empty for a name outside the graph;
the Rust code would panic there, but every access below stays inside it). -/
def dependenciesOf (g : CourseGraph) (name : String) : List String :=
  match g.findCard name with
  | some c => c.dependencies
  | none => []

/-- `self.cards[name].dependents` (empty for a name outside the graph). -/
def dependentsOf (g : CourseGraph) (name : String) : List String :=
  match g.findCard name with
  | some c => c.dependents
  | none => []

end CourseGraph

/-- A fully-initialized per-learner progress store: total map from card name
to progress. -/
def Store := String → TaskProgress

/-- The progress transition of `update_recursive_failed`
(`TaskProgressStore for HashMap`, also `Task::update_parents_info(false)`):
`NotStarted{..} → NotStarted{false}`, `Good → RecursiveFailed`, rest unchanged. -/
def failProgress : TaskProgress → TaskProgress
  | .NotStarted _ => .NotStarted false
  | .Good => .RecursiveFailed
  | p => p

/-- The progress transition of `update_no_recursive_failed`
(also `Task::update_parents_info(true)`):
`NotStarted{..} → NotStarted{true}`, `RecursiveFailed → Good`, rest unchanged. -/
def noFailProgress : TaskProgress → TaskProgress
  | .NotStarted _ => .NotStarted true
  | .RecursiveFailed => .Good
  | p => p

/-- `store.update_recursive_failed(id)`. -/
def updateRecursiveFailed (s : Store) (id : String) : Store :=
  fun m => if m = id then failProgress (s id) else s m

/-- `store.update_no_recursive_failed(id)`. -/
def updateNoRecursiveFailed (s : Store) (id : String) : Store :=
  fun m => if m = id then noFailProgress (s id) else s m

namespace CourseGraph

/-- `CourseGraph::propagate_fail` with explicit fuel: update the card itself,
then recurse unconditionally into its dependents. -/
def propagateFail (g : CourseGraph) : Nat → String → Store → Option Store
  | 0, _, _ => none
  | n + 1, name, s =>
    List.foldlM (fun t x => propagateFail g n x t)
      (updateRecursiveFailed s name) (g.dependentsOf name)

/-- The sequential run of `propagate_fail` over a list of start cards
(the body of the fold in `propagateFail`, and of phase A's loop). -/
def propagateFailOver (g : CourseGraph) (n : Nat) (xs : List String) (s : Store) :
    Option Store :=
  List.foldlM (fun t x => propagateFail g n x t) s xs

/-- `CourseGraph::propagate_no_fail` with explicit fuel: if any dependency is
not `Good`, return unchanged; otherwise update the card and recurse into its
dependents. -/
def propagateNoFail (g : CourseGraph) : Nat → String → Store → Option Store
  | 0, _, _ => none
  | n + 1, name, s =>
    if (g.dependenciesOf name).any (fun x => s x != TaskProgress.Good) then
      some s
    else
      List.foldlM (fun t x => propagateNoFail g n x t)
        (updateNoRecursiveFailed s name) (g.dependentsOf name)

/-- The sequential run of `propagate_no_fail` over a list of cards: both the
recursion into dependents and phase B's outer loop have this shape. -/
def propagateNoFailOver (g : CourseGraph) (n : Nat) (xs : List String) (s : Store) :
    Option Store :=
  List.foldlM (fun t x => propagateNoFail g n x t) s xs

/-- Phase A of `detect_recursive_fails`: for every card in `order` whose
current progress is `Failed`, run `propagate_fail` from it. -/
def detectLoopA (g : CourseGraph) (n : Nat) : List String → Store → Option Store
  | [], s => some s
  | name :: rest, s =>
    if s name = TaskProgress.Failed then
      (g.propagateFail n name s).bind (detectLoopA g n rest)
    else
      detectLoopA g n rest s

/-- The fuel supplied to the two phases: one more than the number of cards
(recursion depth along dependent edges of an acyclic graph is at most the
number of cards). -/
def graphFuel (g : CourseGraph) : Nat := g.keys.length + 1

/-- `CourseGraph::detect_recursive_fails` with explicit iteration orders for
the two phases (the Rust `HashMap` iteration order is unspecified). -/
def detectRecursiveFailsWith (g : CourseGraph) (orderA orderB : List String)
    (s : Store) : Option Store :=
  (g.detectLoopA (graphFuel g) orderA s).bind
    (g.propagateNoFailOver (graphFuel g) orderB)

/-- `CourseGraph::detect_recursive_fails`: phase A then phase B, both over the
graph's cards. -/
def detectRecursiveFails (g : CourseGraph) (s : Store) : Option Store :=
  g.detectRecursiveFailsWith g.keys g.keys s

end CourseGraph

/-- Modelled from the spec: the `(quality: good|again, timestamp)` pair recorded
into the external memory model's history by `add_repetition` (the numeric model
in the excluded `ssr_algorithms` crate is out of scope). -/
structure RepetitionContext where
  quality : Bool
  timestamp : Nat
deriving DecidableEq, Repr

/-- Modelled from the spec: the external memory model's per-card history
(`Level`), kept as the list of recorded repetitions; `add_repetition` appends. -/
def Level := List RepetitionContext
deriving DecidableEq, Repr

/-- Modelled from the spec: `Level::add_repetition` records one repetition
into the history. -/
def Level.addRepetition (l : Level) (r : RepetitionContext) : Level :=
  List.append l [r]

/-- Per-learner per-card state, `telegram-bot/.../progress_store.rs`:
`Task { progress: TaskProgress, level: Level }`. -/
structure Task where
  progress : TaskProgress
  level : Level
deriving DecidableEq, Repr

/-- `Task::default()` (`#[derive(Default)]`): default progress and empty history. -/
def Task.default : Task := ⟨TaskProgress.default, []⟩

/-- `Task::syncronize`, as a function of the current progress and of the two
answers obtained from the external memory model: `timeToRepeat`
(`next_repetition(fsrs, goal) < now`) and `failed` (`self.level.failed()`).
`none` embeds the `assert!(time_to_repeat)` failure (a panic). -/
def syncronize (p : TaskProgress) (timeToRepeat failed : Bool) :
    Option TaskProgress :=
  match p with
  | .NotStarted false => if timeToRepeat then some p else none
  | .Good | .RecursiveFailed => if timeToRepeat then some .Failed else some p
  | .Failed | .NotStarted true => if !failed then some .Good else some p

/-- `Task::add_repetition`: result of the `Result<(), ()>` together with the
task after the call (`Err` leaves the task untouched). -/
def Task.addRepetition (t : Task) (r : RepetitionContext) :
    Except Unit Unit × Task :=
  match t.progress with
  | .NotStarted false | .Good => (.error (), t)
  | .Failed | .NotStarted true | .RecursiveFailed =>
    (.ok (), { t with level := t.level.addRepetition r })

/-- `UserProgress`, reduced to its task table (weights and retention goal are
parameters of the external memory model only). -/
structure UserProgress where
  tasks : List (String × Task)
deriving DecidableEq, Repr

/-- `UserProgress::default()`: empty task table. -/
def UserProgress.default : UserProgress := ⟨[]⟩

/-- `TaskProgressStore::init for UserProgress`: insert a fresh default task;
`none` embeds the panic when the id is already present. -/
def UserProgress.init (up : UserProgress) (id : String) : Option UserProgress :=
  if up.tasks.any (fun p => p.1 == id) then none
  else some ⟨up.tasks ++ [(id, Task.default)]⟩

/-- `CourseGraph::init_store`: initialize one entry per card of the graph. -/
def initStore (g : CourseGraph) (up : UserProgress) : Option UserProgress :=
  List.foldlM (fun u p => UserProgress.init u p.1) up g.cards

/-- `Course::default_user_progress`: init the graph's cards into a fresh
`UserProgress`. -/
def defaultUserProgress (g : CourseGraph) : Option UserProgress :=
  initStore g UserProgress.default

end CourseBot

namespace CourseBot

/-! ## Spec-level predicates -/

open CourseGraph

/-- The dependent edge relation: `b` is a direct dependent of `a`. -/
def depd (g : CourseGraph) (a b : String) : Prop := b ∈ g.dependentsOf a

/-- The dependency edge relation: `b` is a direct dependency of `a`. -/
def depEdge (g : CourseGraph) (a b : String) : Prop := b ∈ g.dependenciesOf a

/-- Reachability along dependent edges (reflexive-transitive). -/
def Reaches (g : CourseGraph) : String → String → Prop :=
  Relation.ReflTransGen (depd g)

/-- Well-formedness of the graph, as guaranteed by the excluded parser:
unique card names, dependency/dependent lists referring to existing cards,
and `dependents` exactly inverse to `dependencies`. -/
structure WF (g : CourseGraph) : Prop where
  nodupKeys : g.keys.Nodup
  depsClosed : ∀ p ∈ g.cards, ∀ d ∈ p.2.dependencies, d ∈ g.keys
  deptsClosed : ∀ p ∈ g.cards, ∀ d ∈ p.2.dependents, d ∈ g.keys
  inv : ∀ p ∈ g.cards, ∀ q ∈ g.cards, (p.1 ∈ q.2.dependents ↔ q.1 ∈ p.2.dependencies)

/-- Acyclicity of the dependent relation (equivalently, of the dependency
relation): no card transitively depends on itself. -/
def Acyclic (g : CourseGraph) : Prop :=
  ∀ c, ¬ Relation.TransGen (depd g) c c

/-- A decidable sufficient condition for acyclicity: a rank strictly
decreasing along every dependent edge listed in the graph. -/
def RankOk (g : CourseGraph) (rank : String → Nat) : Prop :=
  ∀ p ∈ g.cards, ∀ b ∈ p.2.dependents, rank b < rank p.1

/-- Depth bound: all recursion along dependent edges from `a` finishes
within `n` nested calls. -/
inductive HB (g : CourseGraph) : String → Nat → Prop where
  | mk {a : String} {n : Nat} :
      (∀ b ∈ g.dependentsOf a, HB g b n) → HB g a (n + 1)

/-- A card of the phase-B input store that ends up `Good` after recovery
propagation: it is `Good` already, or `RecursiveFailed` with all direct
dependencies ending up `Good`. -/
inductive GoodF (g : CourseGraph) (s : Store) : String → Prop where
  | base {c : String} : s c = .Good → GoodF g s c
  | step {c : String} : s c = .RecursiveFailed →
      (∀ d ∈ g.dependenciesOf c, GoodF g s d) → GoodF g s c

/-- All direct dependencies of `c` end up `Good` after phase B on input `s`. -/
def CanRecover (g : CourseGraph) (s : Store) (c : String) : Prop :=
  ∀ d ∈ g.dependenciesOf c, GoodF g s d

/-- `c` is hit by phase A on input `s`: reachable along dependent edges from
some card of the graph whose progress is `Failed`. -/
def Hit (g : CourseGraph) (s : Store) (c : String) : Prop :=
  ∃ f, f ∈ g.keys ∧ s f = .Failed ∧ Reaches g f c

/-! ## Basic facts about the progress transitions -/

@[simp] theorem failProgress_idem (p : TaskProgress) :
    failProgress (failProgress p) = failProgress p := by
  cases p <;> rfl

@[simp] theorem noFailProgress_idem (p : TaskProgress) :
    noFailProgress (noFailProgress p) = noFailProgress p := by
  cases p <;> rfl

theorem failProgress_eq_failed_iff (p : TaskProgress) :
    failProgress p = .Failed ↔ p = .Failed := by
  cases p <;> simp [failProgress]

theorem noFailProgress_eq_failed_iff (p : TaskProgress) :
    noFailProgress p = .Failed ↔ p = .Failed := by
  cases p <;> simp [noFailProgress]

theorem failProgress_ne_good (p : TaskProgress) : failProgress p ≠ .Good := by
  cases p <;> simp [failProgress]

theorem failProgress_ne_ns_true (p : TaskProgress) :
    failProgress p ≠ .NotStarted true := by
  cases p <;> simp [failProgress]

theorem noFailProgress_ne_rf (p : TaskProgress) :
    noFailProgress p ≠ .RecursiveFailed := by
  cases p <;> simp [noFailProgress]

theorem noFailProgress_good (p : TaskProgress) (h : p = .Good) :
    noFailProgress p = .Good := by subst h; rfl

@[simp] theorem updateRecursiveFailed_same (s : Store) (id : String) :
    updateRecursiveFailed s id id = failProgress (s id) := by
  simp [updateRecursiveFailed]

theorem updateRecursiveFailed_other (s : Store) (id m : String) (h : m ≠ id) :
    updateRecursiveFailed s id m = s m := by
  simp [updateRecursiveFailed, h]

@[simp] theorem updateNoRecursiveFailed_same (s : Store) (id : String) :
    updateNoRecursiveFailed s id id = noFailProgress (s id) := by
  simp [updateNoRecursiveFailed]

theorem updateNoRecursiveFailed_other (s : Store) (id m : String) (h : m ≠ id) :
    updateNoRecursiveFailed s id m = s m := by
  simp [updateNoRecursiveFailed, h]

/-! ## Lookup and membership -/

theorem CourseGraph.findCard_go_eq_some {name : String} {c : CardNode} :
    ∀ {l : List (String × CardNode)}, findCard.go name l = some c →
      (name, c) ∈ l := by
  intro l
  induction l with
  | nil => intro h; simp [findCard.go] at h
  | cons p rest ih =>
    obtain ⟨k, v⟩ := p
    intro h
    by_cases hk : k = name
    · rw [findCard.go, if_pos hk] at h
      obtain rfl : v = c := Option.some.inj h
      subst hk
      exact List.mem_cons_self _ _
    · rw [findCard.go, if_neg hk] at h
      exact List.mem_cons_of_mem _ (ih h)

theorem CourseGraph.findCard_mem {g : CourseGraph} {name : String} {c : CardNode}
    (h : g.findCard name = some c) : (name, c) ∈ g.cards :=
  findCard_go_eq_some h

theorem CourseGraph.mem_keys_of_findCard {g : CourseGraph} {name : String}
    {c : CardNode} (h : g.findCard name = some c) : name ∈ g.keys := by
  have := findCard_mem h
  exact List.mem_map.2 ⟨(name, c), this, rfl⟩

theorem CourseGraph.findCard_go_isSome {name : String} :
    ∀ {l : List (String × CardNode)}, name ∈ l.map Prod.fst →
      ∃ c, findCard.go name l = some c := by
  intro l
  induction l with
  | nil => intro h; simp at h
  | cons p rest ih =>
    obtain ⟨k, v⟩ := p
    intro h
    by_cases hk : k = name
    · exact ⟨v, by rw [findCard.go, if_pos hk]⟩
    · have hmem : name ∈ rest.map Prod.fst := by
        rcases List.mem_cons.1 h with h1 | h1
        · exact absurd h1.symm hk
        · exact h1
      obtain ⟨c, hc⟩ := ih hmem
      exact ⟨c, by rw [findCard.go, if_neg hk]; exact hc⟩

theorem CourseGraph.findCard_isSome_of_mem_keys {g : CourseGraph} {name : String}
    (h : name ∈ g.keys) : ∃ c, g.findCard name = some c :=
  findCard_go_isSome h

/-! ## Consequences of well-formedness -/

theorem mem_keys_of_dependentsOf {g : CourseGraph} {a b : String}
    (h : b ∈ g.dependentsOf a) : a ∈ g.keys := by
  unfold CourseGraph.dependentsOf at h
  cases hf : g.findCard a with
  | none => rw [hf] at h; cases h
  | some c => exact CourseGraph.mem_keys_of_findCard hf

theorem mem_keys_of_dependenciesOf {g : CourseGraph} {a b : String}
    (h : b ∈ g.dependenciesOf a) : a ∈ g.keys := by
  unfold CourseGraph.dependenciesOf at h
  cases hf : g.findCard a with
  | none => rw [hf] at h; cases h
  | some c => exact CourseGraph.mem_keys_of_findCard hf

theorem depd_mem_keys {g : CourseGraph} (hwf : WF g) {a b : String}
    (h : depd g a b) : a ∈ g.keys ∧ b ∈ g.keys := by
  refine ⟨mem_keys_of_dependentsOf h, ?_⟩
  unfold depd CourseGraph.dependentsOf at h
  cases hf : g.findCard a with
  | none => rw [hf] at h; cases h
  | some c =>
    rw [hf] at h
    exact hwf.deptsClosed (a, c) (CourseGraph.findCard_mem hf) b h

theorem depEdge_mem_keys {g : CourseGraph} (hwf : WF g) {a b : String}
    (h : depEdge g a b) : a ∈ g.keys ∧ b ∈ g.keys := by
  refine ⟨mem_keys_of_dependenciesOf h, ?_⟩
  unfold depEdge CourseGraph.dependenciesOf at h
  cases hf : g.findCard a with
  | none => rw [hf] at h; cases h
  | some c =>
    rw [hf] at h
    exact hwf.depsClosed (a, c) (CourseGraph.findCard_mem hf) b h

/-- The dependent and dependency relations are inverse to each other. -/
theorem depd_iff_depEdge {g : CourseGraph} (hwf : WF g) (a b : String) :
    depd g a b ↔ depEdge g b a := by
  constructor
  · intro h
    obtain ⟨ha, hb⟩ := depd_mem_keys hwf h
    obtain ⟨ca, hca⟩ := CourseGraph.findCard_isSome_of_mem_keys ha
    obtain ⟨cb, hcb⟩ := CourseGraph.findCard_isSome_of_mem_keys hb
    unfold depd CourseGraph.dependentsOf at h
    rw [hca] at h
    have := (hwf.inv (b, cb) (CourseGraph.findCard_mem hcb)
      (a, ca) (CourseGraph.findCard_mem hca)).1 h
    unfold depEdge CourseGraph.dependenciesOf
    rw [hcb]
    exact this
  · intro h
    obtain ⟨hb, ha⟩ := depEdge_mem_keys hwf h
    obtain ⟨ca, hca⟩ := CourseGraph.findCard_isSome_of_mem_keys ha
    obtain ⟨cb, hcb⟩ := CourseGraph.findCard_isSome_of_mem_keys hb
    unfold depEdge CourseGraph.dependenciesOf at h
    rw [hcb] at h
    have := (hwf.inv (b, cb) (CourseGraph.findCard_mem hcb)
      (a, ca) (CourseGraph.findCard_mem hca)).2 h
    unfold depd CourseGraph.dependentsOf
    rw [hca]
    exact this

theorem reaches_mem_keys {g : CourseGraph} (hwf : WF g) {a b : String}
    (h : Reaches g a b) (ha : a ∈ g.keys) : b ∈ g.keys := by
  induction h with
  | refl => exact ha
  | tail _ hstep ih => exact (depd_mem_keys hwf hstep).2

/-! ## Rank functions and acyclicity -/

theorem rank_lt_of_depd {g : CourseGraph} {rank : String → Nat}
    (hr : RankOk g rank) {a b : String} (h : depd g a b) : rank b < rank a := by
  obtain ⟨c, hc⟩ := CourseGraph.findCard_isSome_of_mem_keys
    (mem_keys_of_dependentsOf h)
  have hmem : b ∈ c.dependents := by
    unfold depd CourseGraph.dependentsOf at h
    rwa [hc] at h
  exact hr (a, c) (CourseGraph.findCard_mem hc) b hmem

theorem rank_lt_of_transGen {g : CourseGraph} {rank : String → Nat}
    (hr : RankOk g rank) {a b : String}
    (h : Relation.TransGen (depd g) a b) : rank b < rank a := by
  induction h with
  | single hstep => exact rank_lt_of_depd hr hstep
  | tail _ hstep ih => exact lt_trans (rank_lt_of_depd hr hstep) ih

/-- A decreasing rank along dependent edges shows the graph acyclic. -/
theorem acyclic_of_rankOk (g : CourseGraph) (rank : String → Nat)
    (hr : RankOk g rank) : Acyclic g := by
  intro c hc
  exact lt_irrefl _ (rank_lt_of_transGen hr hc)

/-! ## Depth bounds under acyclicity -/

theorem HB.mono {g : CourseGraph} {a : String} {n : Nat} (h : HB g a n) :
    ∀ m, n ≤ m → HB g a m := by
  induction h with
  | mk hdeps ih =>
    intro m hle
    obtain ⟨m', rfl⟩ : ∃ m', m = m' + 1 := ⟨m - 1, by omega⟩
    exact HB.mk fun b hb => ih b hb m' (by omega)

/-- In a well-formed acyclic graph, recursion along dependent edges from any
card finishes within `(number of cards) + 1` nested calls. -/
theorem hb_of_acyclic {g : CourseGraph} (hwf : WF g) (hac : Acyclic g)
    {a : String} (ha : a ∈ g.keys) : HB g a (graphFuel g) := by
  classical
  have main : ∀ n : Nat, ∀ a, a ∈ g.keys →
      ((g.keys.toFinset).filter (fun b => Reaches g a b)).card ≤ n →
      HB g a n := by
    intro n
    induction n with
    | zero =>
      intro a ha hcard
      exfalso
      have hmem : a ∈ (g.keys.toFinset).filter (fun b => Reaches g a b) :=
        Finset.mem_filter.2 ⟨List.mem_toFinset.2 ha, Relation.ReflTransGen.refl⟩
      have : 0 < ((g.keys.toFinset).filter (fun b => Reaches g a b)).card :=
        Finset.card_pos.2 ⟨a, hmem⟩
      omega
    | succ n ih =>
      intro a ha hcard
      refine HB.mk fun b hb => ?_
      have hstep : depd g a b := hb
      have hbk : b ∈ g.keys := (depd_mem_keys hwf hstep).2
      have hamem : a ∈ (g.keys.toFinset).filter (fun c => Reaches g a c) :=
        Finset.mem_filter.2 ⟨List.mem_toFinset.2 ha, Relation.ReflTransGen.refl⟩
      have hsub : (g.keys.toFinset).filter (fun c => Reaches g b c) ⊆
          ((g.keys.toFinset).filter (fun c => Reaches g a c)).erase a := by
        intro c hc
        obtain ⟨hck, hreach⟩ := Finset.mem_filter.1 hc
        refine Finset.mem_erase.2 ⟨?_, Finset.mem_filter.2
          ⟨hck, Relation.ReflTransGen.head hstep hreach⟩⟩
        intro hceq
        exact hac a (Relation.TransGen.head' hstep (hceq ▸ hreach))
      have hle : ((g.keys.toFinset).filter (fun c => Reaches g b c)).card ≤ n := by
        have h1 := Finset.card_le_card hsub
        rw [Finset.card_erase_of_mem hamem] at h1
        omega
      exact ih b hbk hle
  have hlen : ((g.keys.toFinset).filter (fun b => Reaches g a b)).card ≤
      g.keys.length := by
    calc ((g.keys.toFinset).filter (fun b => Reaches g a b)).card
        ≤ g.keys.toFinset.card := Finset.card_filter_le _ _
      _ ≤ g.keys.length := g.keys.toFinset_card_le
  exact (main g.keys.length a ha hlen).mono _ (Nat.le_succ _)

/-! ## Unfolding equations for the fuelled runs -/

open CourseGraph

theorem propagateFail_succ (g : CourseGraph) (n : Nat) (name : String) (s : Store) :
    g.propagateFail (n + 1) name s =
      g.propagateFailOver n (g.dependentsOf name) (updateRecursiveFailed s name) := rfl

theorem propagateFailOver_nil (g : CourseGraph) (n : Nat) (s : Store) :
    g.propagateFailOver n [] s = some s := rfl

theorem propagateFailOver_cons (g : CourseGraph) (n : Nat) (x : String)
    (xs : List String) (s : Store) :
    g.propagateFailOver n (x :: xs) s =
      (g.propagateFail n x s).bind (g.propagateFailOver n xs) := rfl

theorem propagateNoFail_succ_pos (g : CourseGraph) (n : Nat) (name : String)
    (s : Store) (h : (g.dependenciesOf name).any (fun x => s x != TaskProgress.Good)) :
    g.propagateNoFail (n + 1) name s = some s := by
  unfold propagateNoFail
  rw [if_pos h]

theorem propagateNoFail_succ_neg (g : CourseGraph) (n : Nat) (name : String)
    (s : Store)
    (h : ¬ (g.dependenciesOf name).any (fun x => s x != TaskProgress.Good)) :
    g.propagateNoFail (n + 1) name s =
      g.propagateNoFailOver n (g.dependentsOf name)
        (updateNoRecursiveFailed s name) := by
  unfold propagateNoFail
  rw [if_neg h]
  rfl

theorem propagateNoFailOver_nil (g : CourseGraph) (n : Nat) (s : Store) :
    g.propagateNoFailOver n [] s = some s := rfl

theorem propagateNoFailOver_cons (g : CourseGraph) (n : Nat) (x : String)
    (xs : List String) (s : Store) :
    g.propagateNoFailOver n (x :: xs) s =
      (g.propagateNoFail n x s).bind (g.propagateNoFailOver n xs) := rfl

/-- The blocked-check of `propagate_no_fail`, as a proposition: some direct
dependency is currently not `Good`. -/
theorem anyDep_iff (g : CourseGraph) (name : String) (s : Store) :
    (g.dependenciesOf name).any (fun x => s x != TaskProgress.Good) = true ↔
      ∃ d ∈ g.dependenciesOf name, s d ≠ TaskProgress.Good := by
  simp [List.any_eq_true, bne_iff_ne]

/-! ## Termination with sufficient fuel -/

theorem propagateFailOver_isSome {g : CourseGraph} {n : Nat} {xs : List String}
    (h : ∀ x ∈ xs, ∀ s : Store, (g.propagateFail n x s).isSome) :
    ∀ s : Store, (g.propagateFailOver n xs s).isSome := by
  induction xs with
  | nil => intro s; rw [propagateFailOver_nil]; rfl
  | cons x rest ih =>
    intro s
    rw [propagateFailOver_cons]
    obtain ⟨t, ht⟩ := Option.isSome_iff_exists.1 (h x (List.mem_cons_self x rest) s)
    rw [ht]
    exact ih (fun y hy s => h y (List.mem_cons_of_mem x hy) s) t

theorem propagateFail_isSome {g : CourseGraph} {name : String} {fuel : Nat}
    (h : HB g name fuel) : ∀ s : Store, (g.propagateFail fuel name s).isSome := by
  induction h with
  | mk hdeps ih =>
    intro s
    rw [propagateFail_succ]
    exact propagateFailOver_isSome (fun b hb => ih b hb) _

theorem propagateNoFailOver_isSome {g : CourseGraph} {n : Nat} {xs : List String}
    (h : ∀ x ∈ xs, ∀ s : Store, (g.propagateNoFail n x s).isSome) :
    ∀ s : Store, (g.propagateNoFailOver n xs s).isSome := by
  induction xs with
  | nil => intro s; rw [propagateNoFailOver_nil]; rfl
  | cons x rest ih =>
    intro s
    rw [propagateNoFailOver_cons]
    obtain ⟨t, ht⟩ := Option.isSome_iff_exists.1 (h x (List.mem_cons_self x rest) s)
    rw [ht]
    exact ih (fun y hy s => h y (List.mem_cons_of_mem x hy) s) t

theorem propagateNoFail_isSome {g : CourseGraph} {name : String} {fuel : Nat}
    (h : HB g name fuel) : ∀ s : Store, (g.propagateNoFail fuel name s).isSome := by
  induction h with
  | @mk a n hdeps ih =>
    intro s
    by_cases hblock :
        (g.dependenciesOf a).any (fun x => s x != TaskProgress.Good) = true
    · rw [propagateNoFail_succ_pos _ _ _ _ hblock]; rfl
    · rw [propagateNoFail_succ_neg _ _ _ _ hblock]
      exact propagateNoFailOver_isSome (fun b hb => ih b hb) _

theorem detectLoopA_isSome {g : CourseGraph} {fuel : Nat} {order : List String}
    (h : ∀ x ∈ order, HB g x fuel) :
    ∀ s : Store, (g.detectLoopA fuel order s).isSome := by
  induction order with
  | nil => intro s; rfl
  | cons x rest ih =>
    intro s
    unfold detectLoopA
    by_cases hx : s x = TaskProgress.Failed
    · rw [if_pos hx]
      obtain ⟨t, ht⟩ := Option.isSome_iff_exists.1
        (propagateFail_isSome (h x (List.mem_cons_self x rest)) s)
      rw [ht]
      exact ih (fun y hy => h y (List.mem_cons_of_mem x hy)) t
    · rw [if_neg hx]
      exact ih (fun y hy => h y (List.mem_cons_of_mem x hy)) s

/-! ## Phase A: functional characterization -/

/-- What one `propagate_fail` call does: apply `failProgress` exactly to the
cards reachable along dependent edges from the start card. -/
def PFNodeSpec (g : CourseGraph) (n : Nat) : Prop :=
  ∀ name (s t : Store), g.propagateFail n name s = some t →
    ∀ c, (Reaches g name c → t c = failProgress (s c)) ∧
      (¬ Reaches g name c → t c = s c)

/-- What a sequence of `propagate_fail` calls does: apply `failProgress`
exactly to the cards reachable from some start card of the list. -/
def PFListSpec (g : CourseGraph) (n : Nat) : Prop :=
  ∀ (xs : List String) (s t : Store), g.propagateFailOver n xs s = some t →
    ∀ c, ((∃ x ∈ xs, Reaches g x c) → t c = failProgress (s c)) ∧
      ((∀ x ∈ xs, ¬ Reaches g x c) → t c = s c)

theorem pfListSpec_of_nodeSpec {g : CourseGraph} {n : Nat}
    (hnode : PFNodeSpec g n) : PFListSpec g n := by
  intro xs
  induction xs with
  | nil =>
    intro s t h c
    rw [propagateFailOver_nil] at h
    obtain rfl : s = t := Option.some.inj h
    exact ⟨fun ⟨x, hx, _⟩ => absurd hx (List.not_mem_nil x), fun _ => rfl⟩
  | cons x rest ih =>
    intro s t h c
    rw [propagateFailOver_cons] at h
    obtain ⟨u, hu, hrest⟩ := Option.bind_eq_some.1 h
    have hx := hnode x s u hu c
    have hr := ih u t hrest c
    constructor
    · rintro ⟨y, hy, hreach⟩
      by_cases hxc : Reaches g x c
      · have hu_c : u c = failProgress (s c) := hx.1 hxc
        by_cases hrx : ∃ z ∈ rest, Reaches g z c
        · rw [hr.1 hrx, hu_c, failProgress_idem]
        · rw [hr.2 (fun z hz hzc => hrx ⟨z, hz, hzc⟩), hu_c]
      · have hy' : y ∈ rest := by
          rcases List.mem_cons.1 hy with rfl | hmem
          · exact absurd hreach hxc
          · exact hmem
        rw [hr.1 ⟨y, hy', hreach⟩, hx.2 hxc]
    · intro hall
      have hxc : ¬ Reaches g x c := hall x (List.mem_cons_self x rest)
      rw [hr.2 (fun z hz => hall z (List.mem_cons_of_mem x hz)), hx.2 hxc]

theorem pfNodeSpec (g : CourseGraph) : ∀ n, PFNodeSpec g n := by
  intro n
  induction n with
  | zero =>
    intro name s t h
    exact absurd h (by rw [show g.propagateFail 0 name s = none from rfl]; simp)
  | succ n ih =>
    intro name s t h c
    rw [propagateFail_succ] at h
    have hlist := pfListSpec_of_nodeSpec ih (g.dependentsOf name) _ t h c
    have hupd : ∀ m, updateRecursiveFailed s name m =
        if m = name then failProgress (s name) else s m := fun m => rfl
    constructor
    · intro hreach
      by_cases hex : ∃ x ∈ g.dependentsOf name, Reaches g x c
      · rw [hlist.1 hex, hupd c]
        by_cases hc : c = name
        · subst hc; rw [if_pos rfl, failProgress_idem]
        · rw [if_neg hc]
      · rcases Relation.ReflTransGen.cases_head hreach with hc | ⟨b, hb, hbc⟩
        · rw [hlist.2 (fun x hx hxc => hex ⟨x, hx, hxc⟩), hupd c,
            if_pos hc.symm, hc]
        · exact absurd ⟨b, hb, hbc⟩ hex
    · intro hreach
      have hc : c ≠ name := fun hc => hreach (hc ▸ Relation.ReflTransGen.refl)
      have hnone : ∀ x ∈ g.dependentsOf name, ¬ Reaches g x c := by
        intro x hx hxc
        exact hreach (Relation.ReflTransGen.head hx hxc)
      rw [hlist.2 hnone, hupd c, if_neg hc]

theorem propagateFail_spec {g : CourseGraph} {n : Nat} {name : String}
    {s t : Store} (h : g.propagateFail n name s = some t) :
    ∀ c, (Reaches g name c → t c = failProgress (s c)) ∧
      (¬ Reaches g name c → t c = s c) :=
  pfNodeSpec g n name s t h

theorem propagateFail_failed_stable {g : CourseGraph} {n : Nat} {name : String}
    {s t : Store} (h : g.propagateFail n name s = some t) (c : String) :
    t c = TaskProgress.Failed ↔ s c = TaskProgress.Failed := by
  have hc := propagateFail_spec h c
  by_cases hr : Reaches g name c
  · rw [hc.1 hr, failProgress_eq_failed_iff]
  · rw [hc.2 hr]

/-- Characterization of phase A relative to an iteration order: apply
`failProgress` exactly to the cards reachable from a listed `Failed` card. -/
theorem detectLoopA_spec {g : CourseGraph} {n : Nat} :
    ∀ {order : List String} {s t : Store}, g.detectLoopA n order s = some t →
    ∀ c, ((∃ f ∈ order, s f = TaskProgress.Failed ∧ Reaches g f c) →
        t c = failProgress (s c)) ∧
      ((¬ ∃ f ∈ order, s f = TaskProgress.Failed ∧ Reaches g f c) →
        t c = s c) := by
  intro order
  induction order with
  | nil =>
    intro s t h c
    obtain rfl : s = t := Option.some.inj h
    exact ⟨fun ⟨f, hf, _⟩ => absurd hf (List.not_mem_nil f), fun _ => rfl⟩
  | cons name rest ih =>
    intro s t h c
    unfold detectLoopA at h
    by_cases hname : s name = TaskProgress.Failed
    · rw [if_pos hname] at h
      obtain ⟨u, hu, hrest⟩ := Option.bind_eq_some.1 h
      have hpf := propagateFail_spec hu
      have hstable : ∀ f, u f = TaskProgress.Failed ↔ s f = TaskProgress.Failed :=
        propagateFail_failed_stable hu
      have hihc := ih hrest c
      constructor
      · rintro ⟨f, hf, hff, hreach⟩
        by_cases hnc : Reaches g name c
        · have huc : u c = failProgress (s c) := (hpf c).1 hnc
          by_cases hrx : ∃ f ∈ rest, u f = TaskProgress.Failed ∧ Reaches g f c
          · rw [hihc.1 hrx, huc, failProgress_idem]
          · rw [hihc.2 hrx, huc]
        · have hf' : f ∈ rest := by
            rcases List.mem_cons.1 hf with rfl | hmem
            · exact absurd hreach hnc
            · exact hmem
          have huc : u c = s c := (hpf c).2 hnc
          rw [hihc.1 ⟨f, hf', (hstable f).2 hff, hreach⟩, huc]
      · intro hnone
        have hnc : ¬ Reaches g name c :=
          fun hr => hnone ⟨name, List.mem_cons_self name rest, hname, hr⟩
        have hnr : ¬ ∃ f ∈ rest, u f = TaskProgress.Failed ∧ Reaches g f c := by
          rintro ⟨f, hf, hff, hreach⟩
          exact hnone ⟨f, List.mem_cons_of_mem name hf, (hstable f).1 hff, hreach⟩
        rw [hihc.2 hnr, (hpf c).2 hnc]
    · rw [if_neg hname] at h
      have hihc := ih h c
      constructor
      · rintro ⟨f, hf, hff, hreach⟩
        have hf' : f ∈ rest := by
          rcases List.mem_cons.1 hf with rfl | hmem
          · exact absurd hff hname
          · exact hmem
        exact hihc.1 ⟨f, hf', hff, hreach⟩
      · intro hnone
        refine hihc.2 ?_
        rintro ⟨f, hf, hff, hreach⟩
        exact hnone ⟨f, List.mem_cons_of_mem name hf, hff, hreach⟩

/-- Phase A with an order covering exactly the graph's cards realizes the
`Hit`-based characterization. -/
theorem detectLoopA_hit_spec {g : CourseGraph} {n : Nat} {order : List String}
    {s t : Store} (horder : ∀ x, x ∈ order ↔ x ∈ g.keys)
    (h : g.detectLoopA n order s = some t) :
    ∀ c, (Hit g s c → t c = failProgress (s c)) ∧ (¬ Hit g s c → t c = s c) := by
  intro c
  have hc := detectLoopA_spec h c
  constructor
  · rintro ⟨f, hf, hff, hreach⟩
    exact hc.1 ⟨f, (horder f).2 hf, hff, hreach⟩
  · intro hnot
    refine hc.2 ?_
    rintro ⟨f, hf, hff, hreach⟩
    exact hnot ⟨f, (horder f).1 hf, hff, hreach⟩

/-! ## Phase B: invariants -/

/-- `c`'s recovery obligation is met in store `t` (relative to phase-B input
`s0`): if all its direct dependencies are currently `Good`, then `c` already
carries its recovered value. -/
def Upg (g : CourseGraph) (s0 t : Store) (c : String) : Prop :=
  (∀ d ∈ g.dependenciesOf c, t d = TaskProgress.Good) →
    t c = noFailProgress (s0 c)

/-- Soundness invariant of phase B relative to its input store `s0`: every
card is unchanged or recovered, a change is justified by all dependencies
ending up `Good`, and a currently-`Good` card ends up `Good`. -/
def Sound (g : CourseGraph) (s0 t : Store) : Prop :=
  ∀ c, (t c = s0 c ∨ t c = noFailProgress (s0 c)) ∧
    (t c ≠ s0 c → c ∈ g.keys ∧ CanRecover g s0 c) ∧
    (t c = TaskProgress.Good → GoodF g s0 c)

theorem sound_refl (g : CourseGraph) (s0 : Store) : Sound g s0 s0 := by
  intro c
  exact ⟨Or.inl rfl, fun h => absurd rfl h, fun h => GoodF.base h⟩

theorem noFailProgress_eq_good_iff (p : TaskProgress) :
    noFailProgress p = TaskProgress.Good ↔
      p = TaskProgress.Good ∨ p = TaskProgress.RecursiveFailed := by
  cases p <;> simp [noFailProgress]

/-- Specification of one `propagate_no_fail` call. -/
def PNFNodeSpec (g : CourseGraph) (s0 : Store) (n : Nat) : Prop :=
  ∀ name (s t : Store), name ∈ g.keys → Sound g s0 s →
    g.propagateNoFail n name s = some t →
    Sound g s0 t ∧ (∀ c, t c = s c ∨ t c = noFailProgress (s0 c)) ∧
      (∀ c, Upg g s0 s c → Upg g s0 t c) ∧ Upg g s0 t name

/-- Specification of a sequence of `propagate_no_fail` calls. -/
def PNFListSpec (g : CourseGraph) (s0 : Store) (n : Nat) : Prop :=
  ∀ (xs : List String) (s t : Store), (∀ x ∈ xs, x ∈ g.keys) → Sound g s0 s →
    g.propagateNoFailOver n xs s = some t →
    Sound g s0 t ∧ (∀ c, t c = s c ∨ t c = noFailProgress (s0 c)) ∧
      (∀ c, Upg g s0 s c → Upg g s0 t c) ∧ ∀ x ∈ xs, Upg g s0 t x

theorem pnfListSpec_of_nodeSpec {g : CourseGraph} {s0 : Store} {n : Nat}
    (hnode : PNFNodeSpec g s0 n) : PNFListSpec g s0 n := by
  intro xs
  induction xs with
  | nil =>
    intro s t _ hsound h
    obtain rfl : s = t := Option.some.inj h
    exact ⟨hsound, fun c => Or.inl rfl, fun c hc => hc,
      fun x hx => absurd hx (List.not_mem_nil x)⟩
  | cons x rest ih =>
    intro s t hkeys hsound h
    rw [propagateNoFailOver_cons] at h
    obtain ⟨u, hu, hrest⟩ := Option.bind_eq_some.1 h
    obtain ⟨husound, humono, hupres, huupg⟩ :=
      hnode x s u (hkeys x (List.mem_cons_self x rest)) hsound hu
    obtain ⟨htsound, htmono, htpres, htupg⟩ :=
      ih u t (fun y hy => hkeys y (List.mem_cons_of_mem x hy)) husound hrest
    refine ⟨htsound, ?_, ?_, ?_⟩
    · intro c
      rcases htmono c with hc | hc
      · rw [hc]; exact humono c
      · exact Or.inr hc
    · intro c hc
      exact htpres c (hupres c hc)
    · intro y hy
      rcases List.mem_cons.1 hy with rfl | hmem
      · exact htpres y huupg
      · exact htupg y hmem

theorem pnfNodeSpec {g : CourseGraph} (hwf : WF g) (s0 : Store) :
    ∀ n, PNFNodeSpec g s0 n := by
  intro n
  induction n with
  | zero =>
    intro name s t _ _ h
    exact absurd h (by rw [show g.propagateNoFail 0 name s = none from rfl]; simp)
  | succ n ih =>
    have hlist := pnfListSpec_of_nodeSpec ih
    intro name s t hname hsound h
    by_cases hblock :
        (g.dependenciesOf name).any (fun x => s x != TaskProgress.Good) = true
    · rw [propagateNoFail_succ_pos _ _ _ _ hblock] at h
      obtain rfl : s = t := Option.some.inj h
      refine ⟨hsound, fun c => Or.inl rfl, fun c hc => hc, ?_⟩
      intro hdeps
      obtain ⟨d, hd, hdg⟩ := (anyDep_iff g name s).1 hblock
      exact absurd (hdeps d hd) hdg
    · rw [propagateNoFail_succ_neg _ _ _ _ hblock] at h
      have hfire : ∀ d ∈ g.dependenciesOf name, s d = TaskProgress.Good := by
        intro d hd
        by_contra hne
        exact hblock ((anyDep_iff g name s).2 ⟨d, hd, hne⟩)
      have hs1 : ∀ m, updateNoRecursiveFailed s name m =
          if m = name then noFailProgress (s name) else s m := fun m => rfl
      have hs1name : updateNoRecursiveFailed s name name =
          noFailProgress (s0 name) := by
        rw [hs1 name, if_pos rfl]
        rcases (hsound name).1 with hc | hc
        · rw [hc]
        · rw [hc, noFailProgress_idem]
      have hcanrec : CanRecover g s0 name := fun d hd => (hsound d).2.2 (hfire d hd)
      have hs1sound : Sound g s0 (updateNoRecursiveFailed s name) := by
        intro c
        by_cases hc : c = name
        · subst hc
          refine ⟨Or.inr hs1name, fun _ => ⟨hname, hcanrec⟩, ?_⟩
          intro hg
          rw [hs1name] at hg
          rcases (noFailProgress_eq_good_iff _).1 hg with h0 | h0
          · exact GoodF.base h0
          · exact GoodF.step h0 hcanrec
        · have heq : updateNoRecursiveFailed s name c = s c := by
            rw [hs1 c, if_neg hc]
          rw [heq]
          exact hsound c
      have hdepts : ∀ x ∈ g.dependentsOf name, x ∈ g.keys :=
        fun x hx => (depd_mem_keys hwf hx).2
      obtain ⟨htsound, htmono, htpres, htupg⟩ :=
        hlist (g.dependentsOf name) (updateNoRecursiveFailed s name) t
          hdepts hs1sound h
      have htname : t name = noFailProgress (s0 name) := by
        rcases htmono name with hc | hc
        · rw [hc, hs1name]
        · exact hc
      refine ⟨htsound, ?_, ?_, fun _ => htname⟩
      · intro c
        rcases htmono c with hc | hc
        · by_cases hcn : c = name
          · subst hcn
            exact Or.inr (by rw [hc, hs1name])
          · exact Or.inl (by rw [hc, hs1 c, if_neg hcn])
        · exact Or.inr hc
      · intro c hcupg
        by_cases hcn : c = name
        · subst hcn
          exact fun _ => htname
        · by_cases hcdep : name ∈ g.dependenciesOf c
          · exact htupg c ((depd_iff_depEdge hwf name c).2 hcdep)
          · refine htpres c ?_
            intro hdeps
            have hdeps' : ∀ d ∈ g.dependenciesOf c, s d = TaskProgress.Good := by
              intro d hd
              have hdn : d ≠ name := fun he => hcdep (he ▸ hd)
              have hdval := hdeps d hd
              rwa [hs1 d, if_neg hdn] at hdval
            rw [hs1 c, if_neg hcn]
            exact hcupg hdeps'

/-- The full specification of a run of `propagate_no_fail` over a card list
(both phase B's outer loop and its recursion). -/
theorem propagateNoFailOver_spec {g : CourseGraph} (hwf : WF g) {s0 : Store}
    {n : Nat} {xs : List String} {t : Store} (hkeys : ∀ x ∈ xs, x ∈ g.keys)
    (h : g.propagateNoFailOver n xs s0 = some t) :
    Sound g s0 t ∧ ∀ x ∈ xs, Upg g s0 t x := by
  obtain ⟨hsound, _, _, hupg⟩ :=
    pnfListSpec_of_nodeSpec (pnfNodeSpec hwf s0 n) xs s0 t hkeys
      (sound_refl g s0) h
  exact ⟨hsound, hupg⟩

/-! ## Consequences of the phase-B invariants -/

theorem goodF_good_after {g : CourseGraph} (hwf : WF g) {s0 t : Store}
    (hsound : Sound g s0 t) (hupg : ∀ c ∈ g.keys, Upg g s0 t c) {c : String}
    (hg : GoodF g s0 c) : c ∈ g.keys → t c = TaskProgress.Good := by
  induction hg with
  | @base c' h0 =>
    intro _
    rcases (hsound c').1 with hc | hc
    · rw [hc, h0]
    · rw [hc, h0]; rfl
  | @step c' h0 hdeps ih =>
    intro hck
    have hall : ∀ d ∈ g.dependenciesOf c', t d = TaskProgress.Good :=
      fun d hd => ih d hd (depEdge_mem_keys hwf hd).2
    rw [hupg c' hck hall, h0]
    rfl

theorem canRecover_after {g : CourseGraph} (hwf : WF g) {s0 t : Store}
    (hsound : Sound g s0 t) (hupg : ∀ c ∈ g.keys, Upg g s0 t c) {c : String}
    (hck : c ∈ g.keys) (hcr : CanRecover g s0 c) :
    t c = noFailProgress (s0 c) :=
  hupg c hck fun d hd =>
    goodF_good_after hwf hsound hupg (hcr d hd) (depEdge_mem_keys hwf hd).2

theorem not_canRecover_after {g : CourseGraph} {s0 t : Store}
    (hsound : Sound g s0 t) {c : String} (h : ¬ CanRecover g s0 c) :
    t c = s0 c := by
  by_contra hne
  exact h ((hsound c).2.1 hne).2

theorem not_mem_keys_after {g : CourseGraph} {s0 t : Store}
    (hsound : Sound g s0 t) {c : String} (h : c ∉ g.keys) : t c = s0 c := by
  by_contra hne
  exact h ((hsound c).2.1 hne).1

/-- After phase B, a card justified `Good` by the final store is `Good`. -/
theorem goodF_after_eq_good {g : CourseGraph} (hwf : WF g) {s0 t : Store}
    (_hsound : Sound g s0 t) (hupg : ∀ c ∈ g.keys, Upg g s0 t c) {d : String}
    (hg : GoodF g t d) : d ∈ g.keys → t d = TaskProgress.Good := by
  induction hg with
  | @base d' h0 => intro _; exact h0
  | @step d' h0 hdeps ih =>
    intro hdk
    exfalso
    have hall : ∀ e ∈ g.dependenciesOf d', t e = TaskProgress.Good :=
      fun e he => ih e he (depEdge_mem_keys hwf he).2
    have := hupg d' hdk hall
    rw [h0] at this
    exact noFailProgress_ne_rf (s0 d') this.symm

theorem sound_failed_stable {g : CourseGraph} {s0 t : Store}
    (hsound : Sound g s0 t) (c : String) :
    t c = TaskProgress.Failed ↔ s0 c = TaskProgress.Failed := by
  rcases (hsound c).1 with hc | hc
  · rw [hc]
  · rw [hc, noFailProgress_eq_failed_iff]

/-! ## The combined run -/

/-- The workhorse: on a well-formed acyclic graph, `detect_recursive_fails`
(with any phase orders covering the cards) completes and its two phases
satisfy the phase-A hit characterization and the phase-B invariants. -/
theorem detect_spec {g : CourseGraph} (hwf : WF g) (hac : Acyclic g)
    {orderA orderB : List String} (hA : ∀ x, x ∈ orderA ↔ x ∈ g.keys)
    (hB : ∀ x, x ∈ orderB ↔ x ∈ g.keys) (s0 : Store) :
    ∃ s1 s2, g.detectLoopA (graphFuel g) orderA s0 = some s1 ∧
      g.propagateNoFailOver (graphFuel g) orderB s1 = some s2 ∧
      g.detectRecursiveFailsWith orderA orderB s0 = some s2 ∧
      (∀ c, (Hit g s0 c → s1 c = failProgress (s0 c)) ∧
        (¬ Hit g s0 c → s1 c = s0 c)) ∧
      Sound g s1 s2 ∧ (∀ c ∈ g.keys, Upg g s1 s2 c) := by
  have hbA : ∀ x ∈ orderA, HB g x (graphFuel g) :=
    fun x hx => hb_of_acyclic hwf hac ((hA x).1 hx)
  obtain ⟨s1, hs1⟩ := Option.isSome_iff_exists.1 (detectLoopA_isSome hbA s0)
  have hbB : ∀ x ∈ orderB, ∀ s : Store,
      (g.propagateNoFail (graphFuel g) x s).isSome :=
    fun x hx => propagateNoFail_isSome (hb_of_acyclic hwf hac ((hB x).1 hx))
  obtain ⟨s2, hs2⟩ :=
    Option.isSome_iff_exists.1 (propagateNoFailOver_isSome hbB s1)
  obtain ⟨hsound, hupg⟩ :=
    propagateNoFailOver_spec hwf (fun x hx => (hB x).1 hx) hs2
  refine ⟨s1, s2, hs1, hs2, ?_, detectLoopA_hit_spec hA hs1, hsound, ?_⟩
  · unfold detectRecursiveFailsWith
    rw [hs1]
    exact hs2
  · intro c hc
    exact hupg c ((hB c).2 hc)

/-! ## Fail paths block recovery -/

/-- After phase A, no card on a dependent path from a `Failed` card can be
justified `Good` by phase B. -/
theorem not_goodF_of_failed_reaches {g : CourseGraph} (hwf : WF g)
    {s0 s1 : Store}
    (hA : ∀ c, (Hit g s0 c → s1 c = failProgress (s0 c)) ∧
      (¬ Hit g s0 c → s1 c = s0 c))
    {f c : String} (hfk : f ∈ g.keys) (hff : s0 f = TaskProgress.Failed)
    (hreach : Reaches g f c) : ¬ GoodF g s1 c := by
  induction hreach with
  | refl =>
    intro hg
    have hs1f : s1 f = TaskProgress.Failed := by
      rw [(hA f).1 ⟨f, hfk, hff, Relation.ReflTransGen.refl⟩, hff]
      rfl
    cases hg with
    | base h0 => rw [hs1f] at h0; cases h0
    | step h0 _ => rw [hs1f] at h0; cases h0
  | @tail p c' hfp hstep ih =>
    intro hg
    have hhit : Hit g s0 c' := ⟨f, hfk, hff, hfp.tail hstep⟩
    have hs1c : s1 c' = failProgress (s0 c') := (hA c').1 hhit
    cases hg with
    | base h0 =>
      rw [hs1c] at h0
      exact failProgress_ne_good (s0 c') h0
    | step h0 hdeps =>
      exact ih (hdeps p ((depd_iff_depEdge hwf p c').1 hstep))

/-! ## Determinism of the two phases -/

theorem aChar_failed_stable {g : CourseGraph} {s0 s1 : Store}
    (hA : ∀ c, (Hit g s0 c → s1 c = failProgress (s0 c)) ∧
      (¬ Hit g s0 c → s1 c = s0 c)) (c : String) :
    s1 c = TaskProgress.Failed ↔ s0 c = TaskProgress.Failed := by
  by_cases hh : Hit g s0 c
  · rw [(hA c).1 hh, failProgress_eq_failed_iff]
  · rw [(hA c).2 hh]

theorem phaseA_result_det {g : CourseGraph} {s0 t t' : Store}
    (h : ∀ c, (Hit g s0 c → t c = failProgress (s0 c)) ∧
      (¬ Hit g s0 c → t c = s0 c))
    (h' : ∀ c, (Hit g s0 c → t' c = failProgress (s0 c)) ∧
      (¬ Hit g s0 c → t' c = s0 c)) : t = t' := by
  funext c
  by_cases hh : Hit g s0 c
  · rw [(h c).1 hh, (h' c).1 hh]
  · rw [(h c).2 hh, (h' c).2 hh]

theorem phaseB_result_det {g : CourseGraph} (hwf : WF g) {s1 t t' : Store}
    (h1 : Sound g s1 t) (h2 : ∀ c ∈ g.keys, Upg g s1 t c)
    (h1' : Sound g s1 t') (h2' : ∀ c ∈ g.keys, Upg g s1 t' c) : t = t' := by
  funext c
  by_cases hk : c ∈ g.keys
  · by_cases hcr : CanRecover g s1 c
    · rw [canRecover_after hwf h1 h2 hk hcr,
        canRecover_after hwf h1' h2' hk hcr]
    · rw [not_canRecover_after h1 hcr, not_canRecover_after h1' hcr]
  · rw [not_mem_keys_after h1 hk, not_mem_keys_after h1' hk]

/-! ## Transitive dependencies vs. dependent paths -/

theorem transGen_depd_of_depEdge {g : CourseGraph} (hwf : WF g) {c d : String}
    (h : Relation.TransGen (depEdge g) c d) :
    Relation.TransGen (depd g) d c := by
  induction h with
  | single h0 => exact Relation.TransGen.single ((depd_iff_depEdge hwf _ _).2 h0)
  | tail _ h0 ih =>
    exact Relation.TransGen.head ((depd_iff_depEdge hwf _ _).2 h0) ih

theorem transGen_depd_mem_keys_and_reaches {g : CourseGraph} (hwf : WF g)
    {d c : String} (h : Relation.TransGen (depd g) d c) :
    d ∈ g.keys ∧ Reaches g d c := by
  induction h with
  | single h0 =>
    exact ⟨(depd_mem_keys hwf h0).1, Relation.ReflTransGen.single h0⟩
  | tail _ h0 ih => exact ⟨ih.1, ih.2.tail h0⟩

theorem transGen_depd_last_step {g : CourseGraph} {d c : String}
    (h : Relation.TransGen (depd g) d c) :
    ∃ p, Reaches g d p ∧ depd g p c := by
  induction h with
  | single h0 => exact ⟨d, Relation.ReflTransGen.refl, h0⟩
  | tail ht h0 _ => exact ⟨_, ht.to_reflTransGen, h0⟩

/-! ## Main results about `detect_recursive_fails` -/

theorem detectRecursiveFails_spec {g : CourseGraph} (hwf : WF g)
    (hac : Acyclic g) (s0 : Store) :
    ∃ s1 s2, g.detectLoopA (graphFuel g) g.keys s0 = some s1 ∧
      g.propagateNoFailOver (graphFuel g) g.keys s1 = some s2 ∧
      g.detectRecursiveFails s0 = some s2 ∧
      (∀ c, (Hit g s0 c → s1 c = failProgress (s0 c)) ∧
        (¬ Hit g s0 c → s1 c = s0 c)) ∧
      Sound g s1 s2 ∧ (∀ c ∈ g.keys, Upg g s1 s2 c) :=
  detect_spec hwf hac (fun _ => Iff.rfl) (fun _ => Iff.rfl) s0

/-- Running `detect_recursive_fails` right after a run returns the same
store: the second run changes nothing. -/
theorem detect_bind_detect_eq {g : CourseGraph} (hwf : WF g) (hac : Acyclic g)
    (s0 : Store) :
    (g.detectRecursiveFails s0).bind g.detectRecursiveFails =
      g.detectRecursiveFails s0 := by
  obtain ⟨s1, s2, ha1, hb1, hd1, hA1, hS1, hU1⟩ :=
    detectRecursiveFails_spec hwf hac s0
  obtain ⟨s3, s4, ha2, hb2, hd2, hA2, hS2, hU2⟩ :=
    detectRecursiveFails_spec hwf hac s2
  have hf02 : ∀ c, s2 c = TaskProgress.Failed ↔ s0 c = TaskProgress.Failed :=
    fun c => (sound_failed_stable hS1 c).trans (aChar_failed_stable hA1 c)
  have h32 : s3 = s2 := by
    funext c
    by_cases hh : Hit g s2 c
    · obtain ⟨f, hfk, hff, hreach⟩ := hh
      have hf0 : s0 f = TaskProgress.Failed := (hf02 f).1 hff
      rcases Relation.ReflTransGen.cases_tail hreach with hc | ⟨p, hfp, hstep⟩
      · have hs2c : s2 c = TaskProgress.Failed := hc ▸ hff
        rw [(hA2 c).1 ⟨f, hfk, hff, hreach⟩, hs2c]
        rfl
      · have hnotg : ¬ GoodF g s1 p :=
          not_goodF_of_failed_reaches hwf hA1 hfk hf0 hfp
        have hncr : ¬ CanRecover g s1 c :=
          fun hcr => hnotg (hcr p ((depd_iff_depEdge hwf p c).1 hstep))
        have hs2c : s2 c = s1 c := not_canRecover_after hS1 hncr
        have hs1c : s1 c = failProgress (s0 c) :=
          (hA1 c).1 ⟨f, hfk, hf0, hreach⟩
        rw [(hA2 c).1 ⟨f, hfk, hff, hreach⟩, hs2c, hs1c, failProgress_idem]
    · exact (hA2 c).2 hh
  have hS2' : Sound g s2 s4 := h32 ▸ hS2
  have hU2' : ∀ c ∈ g.keys, Upg g s2 s4 c := h32 ▸ hU2
  have h42 : s4 = s2 := by
    funext c
    by_cases hk : c ∈ g.keys
    · by_cases hcr : CanRecover g s2 c
      · have hgood : ∀ d ∈ g.dependenciesOf c, s2 d = TaskProgress.Good :=
          fun d hd => goodF_after_eq_good hwf hS1 hU1 (hcr d hd)
            (depEdge_mem_keys hwf hd).2
        rw [canRecover_after hwf hS2' hU2' hk hcr, hU1 c hk hgood,
          noFailProgress_idem]
      · exact not_canRecover_after hS2' hcr
    · exact not_mem_keys_after hS2' hk
  rw [hd1]
  show g.detectRecursiveFails s2 = some s2
  rw [hd2, h42]

/-- After `detect_recursive_fails`, a `Good` or `NotStarted{true}` card has
no `Failed` transitive dependency. -/
theorem detect_no_failed_transitive_dep {g : CourseGraph} (hwf : WF g)
    (hac : Acyclic g) {s0 s2 : Store}
    (hrun : g.detectRecursiveFails s0 = some s2) {c d : String}
    (hc : s2 c = TaskProgress.Good ∨ s2 c = TaskProgress.NotStarted true)
    (htg : Relation.TransGen (depEdge g) c d) :
    s2 d ≠ TaskProgress.Failed := by
  intro hfail
  obtain ⟨s1, t2, ha1, hb1, hd1, hA1, hS1, hU1⟩ :=
    detectRecursiveFails_spec hwf hac s0
  obtain rfl : s2 = t2 := by
    rw [hrun] at hd1
    exact Option.some.inj hd1
  have hs0d : s0 d = TaskProgress.Failed :=
    (aChar_failed_stable hA1 d).1 ((sound_failed_stable hS1 d).1 hfail)
  have htgd := transGen_depd_of_depEdge hwf htg
  obtain ⟨hdk, hreach⟩ := transGen_depd_mem_keys_and_reaches hwf htgd
  obtain ⟨p, hdp, hstep⟩ := transGen_depd_last_step htgd
  have hnotg : ¬ GoodF g s1 p :=
    not_goodF_of_failed_reaches hwf hA1 hdk hs0d hdp
  have hncr : ¬ CanRecover g s1 c :=
    fun hcr => hnotg (hcr p ((depd_iff_depEdge hwf p c).1 hstep))
  have hs2c : s2 c = failProgress (s0 c) := by
    rw [not_canRecover_after hS1 hncr, (hA1 c).1 ⟨d, hdk, hs0d, hreach⟩]
  rcases hc with hg | hg
  · exact failProgress_ne_good (s0 c) (hs2c ▸ hg)
  · exact failProgress_ne_ns_true (s0 c) (hs2c ▸ hg)

/-- The result of `detect_recursive_fails` does not depend on the iteration
orders of the two phases, as long as each covers the graph's cards. -/
theorem detect_orders_eq {g : CourseGraph} (hwf : WF g) (hac : Acyclic g)
    {oA oB oA2 oB2 : List String} (h1 : ∀ x, x ∈ oA ↔ x ∈ g.keys)
    (h2 : ∀ x, x ∈ oB ↔ x ∈ g.keys) (h3 : ∀ x, x ∈ oA2 ↔ x ∈ g.keys)
    (h4 : ∀ x, x ∈ oB2 ↔ x ∈ g.keys) (s0 : Store) :
    g.detectRecursiveFailsWith oA oB s0 =
      g.detectRecursiveFailsWith oA2 oB2 s0 := by
  obtain ⟨s1, s2, ha1, hb1, hd1, hA1, hS1, hU1⟩ := detect_spec hwf hac h1 h2 s0
  obtain ⟨s1', s2', ha2, hb2, hd2, hA2, hS2, hU2⟩ :=
    detect_spec hwf hac h3 h4 s0
  have h11 : s1' = s1 := phaseA_result_det hA2 hA1
  have hS2' : Sound g s1 s2' := h11 ▸ hS2
  have hU2' : ∀ c ∈ g.keys, Upg g s1 s2' c := h11 ▸ hU2
  rw [hd1, hd2, phaseB_result_det hwf hS1 hU1 hS2' hU2']

/-- On a well-formed acyclic graph, `detect_recursive_fails` completes with
the supplied fuel. -/
theorem detect_isSome {g : CourseGraph} (hwf : WF g) (hac : Acyclic g)
    (s0 : Store) : (g.detectRecursiveFails s0).isSome := by
  obtain ⟨s1, s2, _, _, hd, _, _, _⟩ := detectRecursiveFails_spec hwf hac s0
  rw [hd]
  rfl

/-! ## Store initialization -/

theorem initStore_go_spec :
    ∀ (cs : List (String × CardNode)) (up : UserProgress),
      (cs.map Prod.fst).Nodup →
      (∀ p ∈ cs, ∀ q ∈ up.tasks, q.1 ≠ p.1) →
      List.foldlM (fun u p => UserProgress.init u p.1) up cs =
        some ⟨up.tasks ++ (cs.map Prod.fst).map (fun id => (id, Task.default))⟩ := by
  intro cs
  induction cs with
  | nil =>
    intro up _ _
    simp
  | cons p rest ih =>
    intro up hnd hdisj
    have hany : up.tasks.any (fun q => q.1 == p.1) = false := by
      rw [List.any_eq_false]
      intro q hq
      simpa using hdisj p (List.mem_cons_self p rest) q hq
    have hinit : UserProgress.init up p.1 =
        some ⟨up.tasks ++ [(p.1, Task.default)]⟩ := by
      unfold UserProgress.init
      rw [hany]
      simp
    have hstep : List.foldlM (fun u p => UserProgress.init u p.1) up (p :: rest) =
        List.foldlM (fun u p => UserProgress.init u p.1)
          ⟨up.tasks ++ [(p.1, Task.default)]⟩ rest := by
      rw [List.foldlM_cons, hinit]
      rfl
    rw [hstep]
    have hnd' : (rest.map Prod.fst).Nodup := (List.nodup_cons.1 hnd).2
    have hnotmem : p.1 ∉ rest.map Prod.fst := (List.nodup_cons.1 hnd).1
    have hdisj' : ∀ r ∈ rest, ∀ q ∈ up.tasks ++ [(p.1, Task.default)], q.1 ≠ r.1 := by
      intro r hr q hq
      rcases List.mem_append.1 hq with hq1 | hq1
      · exact hdisj r (List.mem_cons_of_mem p hr) q hq1
      · have : q = (p.1, Task.default) := by simpa using hq1
        subst this
        intro hcontra
        exact hnotmem (hcontra ▸ List.mem_map.2 ⟨r, hr, rfl⟩)
    rw [ih _ hnd' hdisj']
    simp [List.append_assoc]

/-- Full characterization of `default_user_progress`: one default task per
card, in key order. -/
theorem defaultUserProgress_spec (g : CourseGraph) (hnd : g.keys.Nodup) :
    defaultUserProgress g =
      some ⟨g.keys.map (fun id => (id, Task.default))⟩ := by
  unfold defaultUserProgress initStore
  rw [initStore_go_spec g.cards UserProgress.default hnd
    (fun p _ q hq => absurd hq (List.not_mem_nil q))]
  rfl

/-! ## Concrete instances -/

/-- The two-card graph of the spec's scenarios: `a1` depends on `a0`. -/
def gPair : CourseGraph := ⟨[("a0", ⟨[], ["a1"]⟩), ("a1", ⟨["a0"], []⟩)]⟩

/-- A rank witnessing acyclicity of `gPair`. -/
def rankPair : String → Nat := fun n => if n = "a1" then 0 else 1

/-- A one-card graph. -/
def gSingle : CourseGraph := ⟨[("a", ⟨[], []⟩)]⟩

/-- The all-`Good` store. -/
def storeBothGood : Store := fun _ => TaskProgress.Good

/-- The store with `a0` failed and everything else `Good`. -/
def storeA0Failed : Store :=
  fun n => if n = "a0" then TaskProgress.Failed else TaskProgress.Good

/-- Point update of a store (marking one card's progress). -/
def setCard (s : Store) (id : String) (p : TaskProgress) : Store :=
  fun m => if m = id then p else s m

theorem wf_gPair : WF gPair := ⟨by decide, by decide, by decide, by decide⟩

theorem acyclic_gPair : Acyclic gPair :=
  acyclic_of_rankOk gPair rankPair (by unfold RankOk; decide)

/-! ## The claims -/

/-- C1 (counterexample): a `Failed` task that is due but whose history is not
failed is set to `Good` by `syncronize` — the claim predicts it stays
`Failed` because the card is due. -/
theorem c1_counterexample :
    syncronize TaskProgress.Failed true false = some TaskProgress.Good ∧
      some TaskProgress.Good ≠ some TaskProgress.Failed :=
  ⟨rfl, by decide⟩

/-- C1 (amended): for a task whose progress is `Failed` or
`NotStarted{could_be_learned:true}`, `syncronize` sets the progress to `Good`
exactly when the memory model's `failed()` predicate is false — regardless of
whether the card is due; when `failed()` is true the progress is unchanged. -/
theorem c1_failed_or_fresh_good_iff_not_failed (due failed : Bool) :
    syncronize TaskProgress.Failed due failed =
      some (if failed then TaskProgress.Failed else TaskProgress.Good) ∧
    syncronize (TaskProgress.NotStarted true) due failed =
      some (if failed then TaskProgress.NotStarted true else TaskProgress.Good) := by
  cases failed <;> exact ⟨rfl, rfl⟩

/-- C2: `detect_recursive_fails` is idempotent — running it a second time
immediately after a first run returns the same store. -/
theorem c2_detect_recursive_fails_idempotent {g : CourseGraph} (hwf : WF g)
    (hac : Acyclic g) (s : Store) :
    (g.detectRecursiveFails s).bind g.detectRecursiveFails =
      g.detectRecursiveFails s :=
  detect_bind_detect_eq hwf hac s

theorem c2_witness :
    WF gPair ∧ Acyclic gPair ∧
      (gPair.detectRecursiveFails storeA0Failed).bind
          gPair.detectRecursiveFails =
        gPair.detectRecursiveFails storeA0Failed :=
  ⟨wf_gPair, acyclic_gPair,
    c2_detect_recursive_fails_idempotent wf_gPair acyclic_gPair storeA0Failed⟩

/-- C3 (counterexample): on the two-card graph with `a0 = NotStarted{true}`
and `a1 = Good`, `detect_recursive_fails` leaves `a1` at `Good` although its
transitive dependency `a0` is not `Good`. -/
theorem c3_counterexample :
    (gPair.detectRecursiveFails
        (fun n => if n = "a0" then TaskProgress.NotStarted true
          else TaskProgress.Good)).map (fun t => (t "a0", t "a1")) =
      some (TaskProgress.NotStarted true, TaskProgress.Good) ∧
    Relation.TransGen (depEdge gPair) "a1" "a0" ∧
    TaskProgress.NotStarted true ≠ TaskProgress.Good :=
  ⟨rfl, Relation.TransGen.single (by unfold depEdge; decide), by decide⟩

/-- C3 (amended): after `detect_recursive_fails`, every card whose progress
is `Good` or `NotStarted{could_be_learned:true}` has no transitive dependency
whose progress is `Failed`. -/
theorem c3_recovery_soundness_no_failed_dependency {g : CourseGraph}
    (hwf : WF g) (hac : Acyclic g) {s0 s2 : Store}
    (hrun : g.detectRecursiveFails s0 = some s2) {c d : String}
    (hc : s2 c = TaskProgress.Good ∨ s2 c = TaskProgress.NotStarted true)
    (htg : Relation.TransGen (depEdge g) c d) :
    s2 d ≠ TaskProgress.Failed :=
  detect_no_failed_transitive_dep hwf hac hrun hc htg

theorem c3_witness :
    WF gPair ∧ Acyclic gPair ∧
    (gPair.detectRecursiveFails storeBothGood).map (fun t => t "a1") =
      some TaskProgress.Good ∧
    Relation.TransGen (depEdge gPair) "a1" "a0" ∧
    (gPair.detectRecursiveFails storeBothGood).map
        (fun t => decide (t "a0" ≠ TaskProgress.Failed)) = some true := by
  obtain ⟨s2, hs2⟩ : ∃ s2, gPair.detectRecursiveFails storeBothGood = some s2 :=
    ⟨_, rfl⟩
  have hgood : s2 "a1" = TaskProgress.Good := by
    have : (gPair.detectRecursiveFails storeBothGood).map (fun t => t "a1") =
        some TaskProgress.Good := rfl
    rw [hs2] at this
    exact Option.some.inj this
  have htg : Relation.TransGen (depEdge gPair) "a1" "a0" :=
    Relation.TransGen.single (by unfold depEdge; decide)
  have hne := c3_recovery_soundness_no_failed_dependency wf_gPair acyclic_gPair
    hs2 (Or.inl hgood) htg
  refine ⟨wf_gPair, acyclic_gPair, rfl, htg, ?_⟩
  rw [hs2]
  simpa using hne

/-- C4: the result of `detect_recursive_fails` is identical for any
permutations of the iteration orders of the phase-A and phase-B loops. -/
theorem c4_order_independence {g : CourseGraph} (hwf : WF g) (hac : Acyclic g)
    {oA oB oA2 oB2 : List String} (h1 : oA.Perm g.keys) (h2 : oB.Perm g.keys)
    (h3 : oA2.Perm g.keys) (h4 : oB2.Perm g.keys) (s : Store) :
    g.detectRecursiveFailsWith oA oB s =
      g.detectRecursiveFailsWith oA2 oB2 s :=
  detect_orders_eq hwf hac (fun _ => h1.mem_iff) (fun _ => h2.mem_iff)
    (fun _ => h3.mem_iff) (fun _ => h4.mem_iff) s

theorem c4_witness :
    WF gPair ∧ Acyclic gPair ∧
    (["a1", "a0"] : List String).Perm gPair.keys ∧
    (["a0", "a1"] : List String).Perm gPair.keys ∧
    gPair.detectRecursiveFailsWith ["a1", "a0"] ["a1", "a0"] storeA0Failed =
      gPair.detectRecursiveFailsWith ["a0", "a1"] ["a0", "a1"] storeA0Failed := by
  have hp1 : (["a1", "a0"] : List String).Perm gPair.keys := by decide
  have hp2 : (["a0", "a1"] : List String).Perm gPair.keys := by decide
  exact ⟨wf_gPair, acyclic_gPair, hp1, hp2,
    c4_order_independence wf_gPair acyclic_gPair hp1 hp1 hp2 hp2 storeA0Failed⟩

/-- C5: on the two-card graph starting all-`Good`, failing `a0` and running
propagation yields `a1 = RecursiveFailed`; re-marking `a0 = Good` and running
propagation again returns `a1` to `Good`. -/
theorem c5_two_card_scenario :
    (gPair.detectRecursiveFails
        (setCard storeBothGood "a0" TaskProgress.Failed)).map (fun t => t "a1") =
      some TaskProgress.RecursiveFailed ∧
    ((gPair.detectRecursiveFails
        (setCard storeBothGood "a0" TaskProgress.Failed)).bind
      (fun t => gPair.detectRecursiveFails
        (setCard t "a0" TaskProgress.Good))).map (fun t => t "a1") =
      some TaskProgress.Good :=
  ⟨rfl, rfl⟩

/-- C6 (counterexample): `default_user_progress` on a one-card graph creates
the entry with progress `NotStarted{could_be_learned:false}` (the
`TaskProgress` default), not `NotStarted{could_be_learned:true}`. -/
theorem c6_counterexample :
    defaultUserProgress gSingle =
      some ⟨[("a", ⟨TaskProgress.NotStarted false, []⟩)]⟩ ∧
    TaskProgress.NotStarted false ≠ TaskProgress.NotStarted true :=
  ⟨rfl, by decide⟩

/-- C6 (amended): store initialization (`init_store` via
`default_user_progress`) creates, for every card name in the graph, exactly
one entry, and each created entry's progress is
`NotStarted{could_be_learned:false}`. -/
theorem c6_init_store_exactly_one_default_entry (g : CourseGraph)
    (up : UserProgress) (hnd : g.keys.Nodup)
    (hrun : defaultUserProgress g = some up) :
    up.tasks.map Prod.fst = g.keys ∧
    (∀ q ∈ up.tasks, q.2.progress = TaskProgress.NotStarted false) ∧
    (∀ id ∈ g.keys, (up.tasks.filter (fun q => q.1 == id)).length = 1) := by
  rw [defaultUserProgress_spec g hnd] at hrun
  obtain rfl := (Option.some.inj hrun).symm
  refine ⟨?_, ?_, ?_⟩
  · have h1 : ∀ l : List String,
        List.map (Prod.fst ∘ fun id => (id, Task.default)) l = l := by
      intro l
      induction l with
      | nil => rfl
      | cons x xs ih => simp only [List.map_cons, ih, Function.comp_apply]
    simp only [List.map_map]
    exact h1 g.keys
  · intro q hq
    obtain ⟨id, _, rfl⟩ := List.mem_map.1 hq
    rfl
  · intro id hid
    have hfm : ((g.keys.map (fun id' => (id', Task.default))).filter
        (fun q => q.1 == id)) =
        (g.keys.filter (fun id' => id' == id)).map (fun id' => (id', Task.default)) := by
      rw [List.filter_map]
      rfl
    rw [hfm, List.length_map]
    have hc1 : g.keys.count id = 1 := List.count_eq_one_of_mem hnd hid
    rw [List.count] at hc1
    rw [← List.countP_eq_length_filter]
    exact hc1

theorem c6_witness :
    gSingle.keys.Nodup ∧
    defaultUserProgress gSingle = some ⟨[("a", Task.default)]⟩ ∧
    ([("a", Task.default)] : List (String × Task)).map Prod.fst = gSingle.keys ∧
    (∀ q ∈ ([("a", Task.default)] : List (String × Task)),
      q.2.progress = TaskProgress.NotStarted false) ∧
    (∀ id ∈ gSingle.keys,
      (([("a", Task.default)] : List (String × Task)).filter
        (fun q => q.1 == id)).length = 1) := by
  refine ⟨by decide, rfl, ?_⟩
  exact c6_init_store_exactly_one_default_entry gSingle ⟨[("a", Task.default)]⟩
    (by decide) rfl

/-- C7: `add_repetition` on a task whose progress is
`NotStarted{could_be_learned:false}` returns the error (the spec's
`PrerequisitesNotMet`) and leaves the task — in particular its memory-model
history — unchanged. -/
theorem c7_add_repetition_prereqs_not_met (t : Task) (r : RepetitionContext)
    (h : t.progress = TaskProgress.NotStarted false) :
    t.addRepetition r = (Except.error (), t) := by
  unfold Task.addRepetition
  rw [h]

theorem c7_witness :
    (⟨TaskProgress.NotStarted false, []⟩ : Task).progress =
      TaskProgress.NotStarted false ∧
    (⟨TaskProgress.NotStarted false, []⟩ : Task).addRepetition ⟨true, 0⟩ =
      (Except.error (), ⟨TaskProgress.NotStarted false, []⟩) :=
  ⟨rfl, c7_add_repetition_prereqs_not_met _ _ rfl⟩

/-- C8: `syncronize` asserts that a `NotStarted{could_be_learned:false}` card
is due: when the card is due the assertion passes and the progress is left
unchanged, and when it is not due the assertion fails (the run aborts). -/
theorem c8_ns_false_assert_due (failed : Bool) :
    syncronize (TaskProgress.NotStarted false) true failed =
      some (TaskProgress.NotStarted false) ∧
    syncronize (TaskProgress.NotStarted false) false failed = none :=
  ⟨rfl, rfl⟩

/-- C9: on a well-formed acyclic graph, `detect_recursive_fails` terminates
(the fuelled recursion completes within the supplied depth bound) for every
store. -/
theorem c9_detect_recursive_fails_terminates {g : CourseGraph} (hwf : WF g)
    (hac : Acyclic g) (s : Store) : (g.detectRecursiveFails s).isSome :=
  detect_isSome hwf hac s

theorem c9_witness :
    WF gPair ∧ Acyclic gPair ∧
      (gPair.detectRecursiveFails storeA0Failed).isSome :=
  ⟨wf_gPair, acyclic_gPair,
    c9_detect_recursive_fails_terminates wf_gPair acyclic_gPair storeA0Failed⟩

/-- C10: `add_repetition` rejects a `Good` task the same way as a
`NotStarted{could_be_learned:false}` one — error, task unchanged — while
`Failed`, `RecursiveFailed` and `NotStarted{could_be_learned:true}` tasks
accept the repetition and record it into the history. -/
theorem c10_add_repetition_good_rejected (t : Task) (r : RepetitionContext) :
    (t.progress = TaskProgress.Good →
      t.addRepetition r = (Except.error (), t)) ∧
    (t.progress = TaskProgress.Failed ∨
        t.progress = TaskProgress.RecursiveFailed ∨
        t.progress = TaskProgress.NotStarted true →
      t.addRepetition r =
        (Except.ok (), { t with level := t.level.addRepetition r })) := by
  constructor
  · intro h
    unfold Task.addRepetition
    rw [h]
  · rintro (h | h | h) <;> (unfold Task.addRepetition; rw [h])

theorem c10_witness :
    ((⟨TaskProgress.Good, []⟩ : Task).progress = TaskProgress.Good ∧
      (⟨TaskProgress.Good, []⟩ : Task).addRepetition ⟨true, 0⟩ =
        (Except.error (), ⟨TaskProgress.Good, []⟩)) ∧
    ((⟨TaskProgress.Failed, []⟩ : Task).progress = TaskProgress.Failed ∧
      (⟨TaskProgress.Failed, []⟩ : Task).addRepetition ⟨true, 0⟩ =
        (Except.ok (), ⟨TaskProgress.Failed, [⟨true, 0⟩]⟩)) :=
  ⟨⟨rfl, (c10_add_repetition_good_rejected ⟨TaskProgress.Good, []⟩ ⟨true, 0⟩).1 rfl⟩,
    ⟨rfl, (c10_add_repetition_good_rejected ⟨TaskProgress.Failed, []⟩ ⟨true, 0⟩).2
      (Or.inl rfl)⟩⟩

end CourseBot
